import Mathlib

/-!
Verification development for the rich-markup text engine of the card-gen
repository.  The definitions below are a shallow embedding of the C++
implementation in `rich_text.cpp` (the `sfe::rich_text::set_source`
tokenizer/layout pair together with its color helpers); theorems about the
markup tokenizer, run splitting, color resolution and the layout engine are
proved against this embedding.
-/

deriving instance DecidableEq for Except

namespace CardGen

/-- RGBA color with 8-bit channels, modelling `sf::Color`. -/
structure Color where
  r : Nat
  g : Nat
  b : Nat
  a : Nat
deriving DecidableEq

/-- The color `sf::Color::White`. -/
def Color.white : Color := ⟨255, 255, 255, 255⟩

/-- The default named-color registry seeded in the source file:
default/black/blue/cyan/green/magenta/red/white/yellow mapped to the SFML
constant colors. -/
def default_colors : List (String × Color) :=
  [("default", Color.white),
   ("black", ⟨0, 0, 0, 255⟩),
   ("blue", ⟨0, 0, 255, 255⟩),
   ("cyan", ⟨0, 255, 255, 255⟩),
   ("green", ⟨0, 255, 0, 255⟩),
   ("magenta", ⟨255, 0, 255, 255⟩),
   ("red", ⟨255, 0, 0, 255⟩),
   ("white", Color.white),
   ("yellow", ⟨255, 255, 0, 255⟩)]

/-- Exact-key lookup in the named-color registry (`_colors.find(source)`). -/
def lookupColor (reg : List (String × Color)) (s : String) : Option Color :=
  (reg.find? (fun p => p.1 = s)).map (fun p => p.2)

/-- Embedding of `color_from_hex`: the argument is first or-ed with
`0xff000000` and then split into ARGB components.  The or forces the alpha
component of the result to `0xff` unconditionally. -/
def color_from_hex (argb_hex : Nat) : Color :=
  let h := argb_hex ||| 0xff000000
  ⟨(h >>> 16) &&& 0xff, (h >>> 8) &&& 0xff, h &&& 0xff, (h >>> 24) &&& 0xff⟩

/-- C `isspace` on the default locale, as used by `std::stoi`. -/
def isCSpace (c : Char) : Bool :=
  c = ' ' || c = '\t' || c = '\n' || c = '\x0b' || c = '\x0c' || c = '\r'

/-- Numeric value of a hexadecimal digit character, if it is one. -/
def hexDigitVal (c : Char) : Option Nat :=
  if '0' ≤ c ∧ c ≤ '9' then some (c.toNat - '0'.toNat)
  else if 'a' ≤ c ∧ c ≤ 'f' then some (c.toNat - 'a'.toNat + 10)
  else if 'A' ≤ c ∧ c ≤ 'F' then some (c.toNat - 'A'.toNat + 10)
  else none

/-- Whether a character is a hexadecimal digit. -/
def isHexDigitC (c : Char) : Bool := (hexDigitVal c).isSome

/-- Embedding of `std::stoi(source, 0, 16)`: skip leading C whitespace, an
optional sign, an optional `0x`/`0X` prefix (only when a hex digit follows),
then the longest run of hex digits.  `none` models the thrown exception:
either no digits at all (`invalid_argument`) or a value outside the range of
a 32-bit `int` (`out_of_range`).  Trailing non-digit characters are ignored,
exactly as in the C library. -/
def stoi16 (s : String) : Option Int :=
  let cs := s.toList.dropWhile isCSpace
  let signed : Bool × List Char :=
    match cs with
    | '-' :: t => (true, t)
    | '+' :: t => (false, t)
    | _ => (false, cs)
  let cs2 : List Char :=
    match signed.2 with
    | '0' :: x :: d :: t =>
      if (x = 'x' ∨ x = 'X') ∧ isHexDigitC d then d :: t else signed.2
    | _ => signed.2
  let digits := cs2.takeWhile isHexDigitC
  if digits = [] then none
  else
    let v : Nat := digits.foldl (fun a c => a * 16 + (hexDigitVal c).getD 0) 0
    let sv : Int := if signed.1 then -(v : Int) else (v : Int)
    if sv < -(2 ^ 31) ∨ (2 ^ 31 - 1 : Int) < sv then none else some sv

/-- Embedding of `color_from_string`: a registered palette name resolves to
its registered color; otherwise the token is parsed with
`std::stoi(source, 0, 16)` and fed through `color_from_hex` (converted to
`unsigned`, i.e. reduced mod `2^32`); if the parse throws, the default color
white is returned. -/
def color_from_string (reg : List (String × Color)) (s : String) : Color :=
  match lookupColor reg s with
  | some c => c
  | none =>
    match stoi16 s with
    | some v => color_from_hex ((v % (2 ^ 32 : Int)).toNat)
    | none => Color.white

/-- Style-flag bit for `sf::Text::Bold`. -/
def boldBit : Nat := 1
/-- Style-flag bit for `sf::Text::Italic`. -/
def italicBit : Nat := 2
/-- Style-flag bit for `sf::Text::Underlined`. -/
def underlinedBit : Nat := 4
/-- Style-flag bit for `sf::Text::StrikeThrough`. -/
def strikeBit : Nat := 8

/-- Embedding of the anonymous-namespace `format` struct: the style cursor.
The font is an optional font identifier (the path given to the font tag);
`none` models the initial null font pointer. -/
structure Format where
  font : Option String := none
  style_flags : Nat := 0
  fill_color : Color := Color.white
  outline_color : Color := Color.white
  outline_thickness : ℚ := 0
deriving DecidableEq

/-- The default-constructed `format` at the start of `set_source`. -/
def defaultFormat : Format := {}

/-- Embedding of the `chunk` struct: a run of text with one style. -/
structure Chunk where
  fmt : Format
  text : List Char := []
deriving DecidableEq

/-- Embedding of the `align` enumeration. -/
inductive Alignment
  | left
  | center
  | right
deriving DecidableEq

/-- Embedding of the `line` struct: the runs of one line plus its alignment
(defaulting to left). -/
structure Line where
  chunks : List Chunk
  alignment : Alignment := .left
deriving DecidableEq

/-- Error taxonomy of the engine; each constructor corresponds to one of the
`throw` statements reachable from `set_source` (plus the spec names for
them). -/
inductive RTError
  | unterminatedTag
  | invalidEscape
  | invalidAlignment
  | invalidNumber
  | fontLoadError
  | missingFont
deriving DecidableEq

/-- Apply a function to the last element of a list, if any.  Used to model
the C++ mutations of `lines.back()` and `chunks.back()`. -/
def modifyLast (f : α → α) : List α → List α
  | [] => []
  | [x] => [f x]
  | x :: y :: t => x :: modifyLast f (y :: t)

/-- Tokenizer state: the running style cursor (`current_format`) and the
lines built so far (always nonempty during a scan). -/
structure TokState where
  fmt : Format
  lines : List Line
deriving DecidableEq

/-- The state at the start of `set_source`: a default style cursor and one
line holding one empty chunk with that style. -/
def initState : TokState := ⟨defaultFormat, [⟨[⟨defaultFormat, []⟩], .left⟩]⟩

/-- Embedding of the `apply_formatting` lambda: if the current (last) chunk
of the current (last) line already has text, push a new chunk carrying the
updated style; otherwise overwrite the current chunk's style in place.  The
`none` branch is unreachable during a scan (every line always holds at least
one chunk; in the C++ it would be undefined behaviour). -/
def apply_formatting (fmt : Format) (lines : List Line) : List Line :=
  modifyLast (fun ln =>
    match ln.chunks.getLast? with
    | some c =>
      if c.text ≠ [] then { ln with chunks := ln.chunks ++ [⟨fmt, []⟩] }
      else { ln with chunks := modifyLast (fun ch => { ch with fmt := fmt }) ln.chunks }
    | none => { ln with chunks := [⟨fmt, []⟩] }) lines

/-- Append one code point to the text of the current chunk
(`lines.back().chunks.back().text += *it`). -/
def appendText (c : Char) (lines : List Line) : List Line :=
  modifyLast (fun ln =>
    { ln with chunks := modifyLast (fun ch => { ch with text := ch.text ++ [c] }) ln.chunks }) lines

/-- Toggle one style bit on the cursor and run `apply_formatting`. -/
def toggleFmt (bit : Nat) (st : TokState) : TokState :=
  let f := { st.fmt with style_flags := st.fmt.style_flags ^^^ bit }
  ⟨f, apply_formatting f st.lines⟩

/-- Start a new line whose initial chunk carries the current style cursor
(`lines.push_back(line{{chunk{current_format}}})`). -/
def pushLine (st : TokState) : TokState :=
  ⟨st.fmt, st.lines ++ [⟨[⟨st.fmt, []⟩], .left⟩]⟩

/-- Append a plain or escaped code point to the current chunk. -/
def appendChar (c : Char) (st : TokState) : TokState :=
  ⟨st.fmt, appendText c st.lines⟩

/-- Embedding of `std::find(it, source.end(), ']')` together with the two
iterator ranges derived from it: the tag body strictly before the first `]`
and the remaining input strictly after it; `none` when no `]` exists. -/
def splitAtRBracket : List Char → Option (List Char × List Char)
  | [] => none
  | c :: rest =>
    if c = ']' then some ([], rest)
    else (splitAtRBracket rest).map (fun p => (c :: p.1, p.2))

/-- External collaborators of the tokenizer: the named-color registry in
effect during the scan and the font resolver (`true` when
`sf::Font::loadFromFile` would succeed for the given path). -/
structure Ctx where
  reg : List (String × Color)
  resolveFont : String → Bool

/-- The largest finite `float` (`FLT_MAX` = (2^24 − 1)·2^104), as an exact
rational. -/
def fltMax : ℚ := (((2 ^ 24 - 1) * 2 ^ 104 : Nat) : ℚ)

/-- The smallest normalized positive `float` (`FLT_MIN` = 2^(−126)). -/
def fltMinNormal : ℚ := mkRat 1 (2 ^ 126)

/-- Whether an exponent marker would actually be consumed by `strtof`: the
`e`/`E` must be followed by an optional sign and at least one digit
(`"1e"` and `"1ex"` parse as plain `1` with the `e` left over). -/
def expTail : List Char → Bool
  | '+' :: d :: _ => d.isDigit
  | '-' :: d :: _ => d.isDigit
  | d :: _ => d.isDigit
  | [] => false

/-- Model of `std::stof` on its plain decimal fragment: optional
whitespace and sign, digits with an optional decimal fraction, taken at
their exact rational value (the embedding uses `ℚ` for the C++ floats
throughout).  `none` models the thrown exception — no digits at all
(`invalid_argument`), or a magnitude outside the normalized `float` range
(`out_of_range`).  `none` is also returned for every form outside the
modelled fragment, where `std::stof` may succeed with a value the model
does not compute: hexadecimal notation, a consumed exponent part,
infinities and NaNs, and the rounding window just above `FLT_MAX`; on
those inputs the model is deliberately conservative and `some` is never
produced, so wherever `stofQ` returns `some v` the program parses the same
decimal digits to the float nearest `v`. -/
def stofQ (s : String) : Option ℚ :=
  let cs := s.toList.dropWhile isCSpace
  let signed : Bool × List Char :=
    match cs with
    | '-' :: t => (true, t)
    | '+' :: t => (false, t)
    | _ => (false, cs)
  let intDigits := signed.2.takeWhile Char.isDigit
  let rest := signed.2.dropWhile Char.isDigit
  let fracDigits : List Char :=
    match rest with
    | '.' :: t => t.takeWhile Char.isDigit
    | _ => []
  let afterFrac : List Char :=
    match rest with
    | '.' :: t => t.dropWhile Char.isDigit
    | _ => rest
  let hexForm : Bool :=
    match signed.2 with
    | '0' :: x :: _ => x = 'x' || x = 'X'
    | _ => false
  let expForm : Bool :=
    match afterFrac with
    | 'e' :: t => expTail t
    | 'E' :: t => expTail t
    | _ => false
  if intDigits = [] ∧ fracDigits = [] then none
  else if hexForm then none
  else if expForm then none
  else
    let ip : Nat := intDigits.foldl (fun a c => a * 10 + (c.toNat - '0'.toNat)) 0
    let fp : Nat := fracDigits.foldl (fun a c => a * 10 + (c.toNat - '0'.toNat)) 0
    let mag : ℚ := mkRat (ip * 10 ^ fracDigits.length + fp) (10 ^ fracDigits.length)
    if fltMax < mag then none
    else if 0 < mag ∧ mag < fltMinNormal then none
    else some (if signed.1 then -mag else mag)

/-- Embedding of the tag case of `set_source`: split the body at the first
space into command and argument and dispatch.  When the body holds no space
the C++ argument range `[command_end + 1, tag_end)` is an invalid (empty in
spirit) iterator range — undefined behaviour in the source; the model takes
the argument to be empty there. -/
def handleTag (ctx : Ctx) (st : TokState) (body : List Char) : Except RTError TokState :=
  let command := body.takeWhile (fun c => c ≠ ' ')
  let arg := body.drop (command.length + 1)
  if command = "fill-color".toList then
    let f := { st.fmt with fill_color := color_from_string ctx.reg (String.mk arg) }
    .ok ⟨f, apply_formatting f st.lines⟩
  else if command = "outline-color".toList then
    let f := { st.fmt with outline_color := color_from_string ctx.reg (String.mk arg) }
    .ok ⟨f, apply_formatting f st.lines⟩
  else if command = "outline-thickness".toList then
    match stofQ (String.mk arg) with
    | some v =>
      let f := { st.fmt with outline_thickness := v }
      .ok ⟨f, apply_formatting f st.lines⟩
    | none => .error .invalidNumber
  else if command = "font".toList then
    if ctx.resolveFont (String.mk arg) then
      let f := { st.fmt with font := some (String.mk arg) }
      .ok ⟨f, apply_formatting f st.lines⟩
    else .error .fontLoadError
  else if command = "align".toList then
    if arg = "left".toList then
      .ok ⟨st.fmt, modifyLast (fun ln => { ln with alignment := .left }) st.lines⟩
    else if arg = "center".toList then
      .ok ⟨st.fmt, modifyLast (fun ln => { ln with alignment := .center }) st.lines⟩
    else if arg = "right".toList then
      .ok ⟨st.fmt, modifyLast (fun ln => { ln with alignment := .right }) st.lines⟩
    else .error .invalidAlignment
  else .ok st

/-- The six characters accepted after a backslash. -/
def escapeList : List Char := ['/', '*', '_', '~', '[', '\\']

/-- Fuel-indexed scanning loop of `set_source`.  The fuel only serves to
make the recursion structural; `tokLoopAux_fuel` below shows the result does
not depend on it as long as it is at least the input length, which is how
`tokLoop` instantiates it. -/
def tokLoopAux (ctx : Ctx) : Nat → TokState → List Char → Except RTError TokState
  | 0, st, _ => .ok st
  | fuel + 1, st, cs =>
    match cs with
    | [] => .ok st
    | c :: rest =>
      if c = '/' then tokLoopAux ctx fuel (toggleFmt italicBit st) rest
      else if c = '*' then tokLoopAux ctx fuel (toggleFmt boldBit st) rest
      else if c = '_' then tokLoopAux ctx fuel (toggleFmt underlinedBit st) rest
      else if c = '~' then tokLoopAux ctx fuel (toggleFmt strikeBit st) rest
      else if c = '[' then
        match splitAtRBracket rest with
        | none => .error .unterminatedTag
        | some (body, after) =>
          (handleTag ctx st body).bind (fun st2 => tokLoopAux ctx fuel st2 after)
      else if c = '\\' then
        match rest with
        | [] => .error .invalidEscape
        | d :: rest2 =>
          if d ∈ escapeList then tokLoopAux ctx fuel (appendChar d st) rest2
          else .error .invalidEscape
      else if c = '\n' then tokLoopAux ctx fuel (pushLine st) rest
      else tokLoopAux ctx fuel (appendChar c st) rest

/-- The scanning loop of `set_source`, from an arbitrary state. -/
def tokLoop (ctx : Ctx) (st : TokState) (cs : List Char) : Except RTError TokState :=
  tokLoopAux ctx cs.length st cs

/-- Embedding of the scanning phase of `sfe::rich_text::set_source`: run the
loop from the initial one-line/one-empty-chunk state. -/
def set_source (ctx : Ctx) (cs : List Char) : Except RTError TokState :=
  tokLoop ctx initState cs

/-- Axis-aligned rectangle, modelling `sf::FloatRect` with exact rational
coordinates. -/
structure Rect where
  left : ℚ
  top : ℚ
  width : ℚ
  height : ℚ
deriving DecidableEq

/-- The text-measurement collaborator: line spacing for a font at a
character size (`sf::Font::getLineSpacing`), the pen advance of a run
(`sf::Text::findCharacterPos(text.getSize())` relative to the text
position), and the local glyph-extent rectangle of a run
(`sf::Text::getLocalBounds`), the latter two given the run's full style and
the character size. -/
structure Measurer where
  lineSpacing : String → Nat → ℚ
  advance : Format → Nat → List Char → ℚ
  localBounds : Format → Nat → List Char → Rect

/-- A run together with the pen origin assigned by layout. -/
structure PosRun where
  chunk : Chunk
  origin : ℚ × ℚ
deriving DecidableEq

/-- C `roundf`: round to nearest integer, halves away from zero. -/
def croundf (q : ℚ) : ℤ :=
  if q < 0 then -⌊-q + 1 / 2⌋ else ⌊q + 1 / 2⌋

/-- The global glyph extent of a positioned run: its local bounds translated
by its origin (`sf::Text::getGlobalBounds` under a pure translation). -/
def extentOf (M : Measurer) (size : Nat) (pr : PosRun) : Rect :=
  let lb := M.localBounds pr.chunk.fmt size pr.chunk.text
  ⟨lb.left + pr.origin.1, lb.top + pr.origin.2, lb.width, lb.height⟩

/-- Layout accumulator: the pen cursor (`next_position`), the running
document bounds (`_bounds`) and the positioned runs built so far
(`_texts`). -/
structure LayoutAcc where
  pos : ℚ × ℚ
  bounds : Rect
  texts : List PosRun
deriving DecidableEq

/-- The rounded pen position at which the current run is placed
(`setPosition(roundf(x), roundf(y))`). -/
def placedAt (acc : LayoutAcc) : ℚ × ℚ :=
  (((croundf acc.pos.1 : ℤ) : ℚ), ((croundf acc.pos.2 : ℤ) : ℚ))

/-- The successful part of the per-chunk layout body: place the run at the
rounded cursor, advance the cursor to the end of the run
(`findCharacterPos`), and extend the bounds' width/height by the run's
global extent relative to the bounds' left/top. -/
def layStep (M : Measurer) (size : Nat) (acc : LayoutAcc) (ch : Chunk) : LayoutAcc :=
  let pr : PosRun := ⟨ch, placedAt acc⟩
  let ext := extentOf M size pr
  { pos := ((placedAt acc).1 + M.advance ch.fmt size ch.text, (placedAt acc).2),
    bounds :=
      { acc.bounds with
        width := max acc.bounds.width (ext.left + ext.width - acc.bounds.left),
        height := max acc.bounds.height (ext.top + ext.height - acc.bounds.top) },
    texts := acc.texts ++ [pr] }

/-- Embedding of the per-chunk body of the layout loop: fail when the chunk
has no font; otherwise update the running line spacing and perform
`layStep`. -/
def layChunk (M : Measurer) (size : Nat) (accsp : LayoutAcc × ℚ) (ch : Chunk) :
    Except RTError (LayoutAcc × ℚ) :=
  match ch.fmt.font with
  | none => .error .missingFont
  | some f => .ok (layStep M size accsp.1 ch, max accsp.2 (M.lineSpacing f size))

/-- Run the layout loop over the chunks of one line. -/
def layChunks (M : Measurer) (size : Nat) (accsp : LayoutAcc × ℚ) :
    List Chunk → Except RTError (LayoutAcc × ℚ)
  | [] => .ok accsp
  | ch :: t => (layChunk M size accsp ch).bind (fun a => layChunks M size a t)

/-- Lay out one line, starting its line-spacing accumulator at 0. -/
def layLine (M : Measurer) (size : Nat) (acc : LayoutAcc) (ln : Line) :
    Except RTError (LayoutAcc × ℚ) :=
  layChunks M size (acc, 0) ln.chunks

/-- Embedding of the line loop of `set_source`: after every line except the
last, reset the cursor x to 0 and advance y by the line's computed
spacing. -/
def layLines (M : Measurer) (size : Nat) (acc : LayoutAcc) :
    List Line → Except RTError LayoutAcc
  | [] => .ok acc
  | [ln] => (layLine M size acc ln).map Prod.fst
  | ln :: rest =>
    (layLine M size acc ln).bind (fun a =>
      layLines M size { a.1 with pos := ((0 : ℚ), a.1.pos.2 + a.2) } rest)

/-- The layout accumulator at the start of the line loop: cursor `(0, 0)`,
bounds `{0, 0, 0, 0}`, no runs. -/
def layoutInit : LayoutAcc := ⟨((0 : ℚ), (0 : ℚ)), ⟨0, 0, 0, 0⟩, []⟩

/-- Embedding of the layout phase of `set_source`. -/
def layout (M : Measurer) (size : Nat) (lines : List Line) :
    Except RTError (Rect × List PosRun) :=
  (layLines M size layoutInit lines).map (fun a => (a.bounds, a.texts))

/-- The whole of `sfe::rich_text::set_source`: tokenize, then lay out the
resulting lines. -/
def rich_text_set_source (ctx : Ctx) (M : Measurer) (size : Nat) (cs : List Char) :
    Except RTError (Rect × List PosRun) :=
  (set_source ctx cs).bind (fun st => layout M size st.lines)

/-- Maximum line spacing over the fonts used by a line's chunks at the given
character size, starting from 0 — the value accumulated in `line_spacing` by
the layout loop (a missing font contributes its resolver default and never
occurs on the success path). -/
def lineSpacingFold (M : Measurer) (size : Nat) (ln : Line) : ℚ :=
  ln.chunks.foldl (fun s ch => max s (M.lineSpacing (ch.fmt.font.getD "") size)) 0

/-- Right edge of a positioned run's global extent. -/
def extRight (M : Measurer) (size : Nat) (pr : PosRun) : ℚ :=
  (extentOf M size pr).left + (extentOf M size pr).width

/-- Bottom edge of a positioned run's global extent. -/
def extBottom (M : Measurer) (size : Nat) (pr : PosRun) : ℚ :=
  (extentOf M size pr).top + (extentOf M size pr).height

/-- The style-flag bit toggled by each toggle control character, according
to the cases of the scanning switch. -/
def toggleBitOf (c : Char) : Nat :=
  if c = '/' then italicBit
  else if c = '*' then boldBit
  else if c = '_' then underlinedBit
  else if c = '~' then strikeBit
  else 0

/-- Modelled from the spec: a rectangle contains another when the second
lies inside the first. -/
def containsRect (r e : Rect) : Prop :=
  r.left ≤ e.left ∧ r.top ≤ e.top ∧
  e.left + e.width ≤ r.left + r.width ∧ e.top + e.height ≤ r.top + r.height

/-- Modelled from the spec sentence that the document bounds is the
smallest rectangle containing every rendered run's glyph extent: it
contains all of them, and is contained in every rectangle that does. -/
def isSmallestContaining (r : Rect) (es : List Rect) : Prop :=
  (∀ e ∈ es, containsRect r e) ∧ ∀ r2, (∀ e ∈ es, containsRect r2 e) → containsRect r2 r

/-- Sample tokenizer context: the default registry and a resolver that
accepts every font path. -/
def sampleCtx : Ctx := ⟨default_colors, fun _ => true⟩

/-- A format whose font has been established by a `[font f]` tag. -/
def fmtF : Format := { font := some "f" }

/-- Sample measurer: integral line spacing 2, advance 3, glyph extents
anchored at the pen. -/
def M2 : Measurer := ⟨fun _ _ => 2, fun _ _ _ => 3, fun _ _ _ => ⟨0, 0, 3, 2⟩⟩

/-- Sample measurer with fractional line spacing 5/2. -/
def Mhalf : Measurer := ⟨fun _ _ => 5 / 2, fun _ _ _ => 3, fun _ _ _ => ⟨0, 0, 3, 2⟩⟩

/-- Sample measurer whose glyph extents do not touch the origin: local
bounds have left bearing 2 and top bearing 1. -/
def Me : Measurer := ⟨fun _ _ => 2, fun _ _ _ => 3, fun _ _ _ => ⟨2, 1, 3, 2⟩⟩

/-- The line holding the single run `"a"` in the established font. -/
def lnA : Line := ⟨[⟨fmtF, ['a']⟩], .left⟩

/-- The line holding the single run `"b"` in the established font. -/
def lnB : Line := ⟨[⟨fmtF, ['b']⟩], .left⟩

/-- The layout accumulator after laying out `lnA` from the initial one. -/
def accA : LayoutAcc :=
  ⟨((3 : ℚ), (0 : ℚ)), ⟨0, 0, 3, 2⟩, [⟨⟨fmtF, ['a']⟩, ((0 : ℚ), (0 : ℚ))⟩]⟩

/-! Basic facts about `splitAtRBracket`. -/

theorem splitAtRBracket_eq_some :
    ∀ {cs b a : List Char}, splitAtRBracket cs = some (b, a) →
      cs = b ++ ']' :: a ∧ ']' ∉ b := by
  intro cs
  induction cs with
  | nil => intro b a h; simp [splitAtRBracket] at h
  | cons c rest ih =>
    intro b a h
    by_cases hc : c = ']'
    · subst hc
      simp only [splitAtRBracket, if_pos rfl, Option.some.injEq, Prod.mk.injEq] at h
      obtain ⟨rfl, rfl⟩ := h
      exact ⟨rfl, by simp⟩
    · simp only [splitAtRBracket, if_neg hc] at h
      rcases hsp : splitAtRBracket rest with _ | ⟨b2, a2⟩
      · rw [hsp] at h; simp at h
      · rw [hsp] at h
        simp only [Option.map_some', Option.some.injEq, Prod.mk.injEq] at h
        obtain ⟨hb, ha⟩ := h
        obtain ⟨h1, h2⟩ := ih hsp
        subst ha
        subst h1
        refine ⟨by rw [← hb]; simp, ?_⟩
        rw [← hb]
        simp only [List.mem_cons, not_or]
        exact ⟨fun e => hc e.symm, h2⟩

theorem splitAtRBracket_of_no_rbracket :
    ∀ {cs : List Char}, ']' ∉ cs → splitAtRBracket cs = none := by
  intro cs
  induction cs with
  | nil => intro _; rfl
  | cons c rest ih =>
    intro h
    simp only [List.mem_cons, not_or] at h
    rw [splitAtRBracket, if_neg (fun e => h.1 e.symm), ih h.2]
    rfl

theorem splitAtRBracket_append :
    ∀ {b : List Char}, ']' ∉ b → ∀ (a : List Char),
      splitAtRBracket (b ++ ']' :: a) = some (b, a) := by
  intro b
  induction b with
  | nil => intro _ a; simp [splitAtRBracket]
  | cons c t ih =>
    intro h a
    simp only [List.mem_cons, not_or] at h
    rw [List.cons_append, splitAtRBracket, if_neg (fun e => h.1 e.symm), ih h.2]
    rfl

theorem splitAtRBracket_length {cs b a : List Char}
    (h : splitAtRBracket cs = some (b, a)) : a.length ≤ cs.length := by
  obtain ⟨h1, _⟩ := splitAtRBracket_eq_some h
  subst h1
  simp
  omega

/-! The scanning loop does not depend on the fuel, as long as the fuel is at
least the input length. -/

theorem tokLoopAux_fuel (ctx : Ctx) :
    ∀ f (cs : List Char) (st : TokState), cs.length ≤ f →
      tokLoopAux ctx f st cs = tokLoopAux ctx cs.length st cs := by
  intro f
  induction f using Nat.strong_induction_on with
  | _ f IH =>
    intro cs st hle
    match f, cs with
    | f, [] => cases f <;> rfl
    | 0, c :: rest => simp at hle
    | f + 1, c :: rest =>
      have hrest : rest.length ≤ f := by simp at hle; omega
      show tokLoopAux ctx (f + 1) st (c :: rest) =
        tokLoopAux ctx (rest.length + 1) st (c :: rest)
      simp only [tokLoopAux]
      split_ifs
      · exact IH f (by omega) rest _ hrest
      · exact IH f (by omega) rest _ hrest
      · exact IH f (by omega) rest _ hrest
      · exact IH f (by omega) rest _ hrest
      · rcases hsp : splitAtRBracket rest with _ | ⟨body, after⟩
        · simp only [hsp]
        · simp only [hsp]
          have hafter := splitAtRBracket_length hsp
          cases hht : handleTag ctx st body with
          | error e => simp only [hht, Except.bind]
          | ok st2 =>
            simp only [hht, Except.bind]
            rw [IH f (by omega) after st2 (le_trans hafter hrest),
              IH rest.length (by omega) after st2 hafter]
      · rcases rest with _ | ⟨d, rest2⟩
        · rfl
        · dsimp only
          by_cases hd : d ∈ escapeList
          · rw [if_pos hd, if_pos hd]
            have h2 : rest2.length ≤ f := by
              simp only [List.length_cons] at hrest; omega
            rw [IH f (by omega) rest2 _ h2]
            exact (IH (d :: rest2).length (by omega) rest2 _ (by simp)).symm
          · rw [if_neg hd, if_neg hd]
      · exact IH f (by omega) rest _ hrest
      · exact IH f (by omega) rest _ hrest

/-! One-step equations for the scanning loop, mirroring the cases of the
`switch` statement in `set_source`. -/

theorem tokLoop_nil (ctx : Ctx) (st : TokState) : tokLoop ctx st [] = .ok st := rfl

theorem tokLoop_italic (ctx : Ctx) (st : TokState) (rest : List Char) :
    tokLoop ctx st ('/' :: rest) = tokLoop ctx (toggleFmt italicBit st) rest := by
  simp [tokLoop, tokLoopAux]

theorem tokLoop_bold (ctx : Ctx) (st : TokState) (rest : List Char) :
    tokLoop ctx st ('*' :: rest) = tokLoop ctx (toggleFmt boldBit st) rest := by
  simp [tokLoop, tokLoopAux]

theorem tokLoop_underline (ctx : Ctx) (st : TokState) (rest : List Char) :
    tokLoop ctx st ('_' :: rest) = tokLoop ctx (toggleFmt underlinedBit st) rest := by
  simp [tokLoop, tokLoopAux]

theorem tokLoop_strike (ctx : Ctx) (st : TokState) (rest : List Char) :
    tokLoop ctx st ('~' :: rest) = tokLoop ctx (toggleFmt strikeBit st) rest := by
  simp [tokLoop, tokLoopAux]

theorem tokLoop_newline (ctx : Ctx) (st : TokState) (rest : List Char) :
    tokLoop ctx st ('\n' :: rest) = tokLoop ctx (pushLine st) rest := by
  simp [tokLoop, tokLoopAux]

theorem tokLoop_plain (ctx : Ctx) (st : TokState) {c : Char} (rest : List Char)
    (h : c ∉ ['/', '*', '_', '~', '[', '\\', '\n']) :
    tokLoop ctx st (c :: rest) = tokLoop ctx (appendChar c st) rest := by
  simp only [List.mem_cons, not_or] at h
  obtain ⟨h1, h2, h3, h4, h5, h6, h7, _⟩ := h
  simp [tokLoop, tokLoopAux, h1, h2, h3, h4, h5, h6, h7]

theorem tokLoop_escape (ctx : Ctx) (st : TokState) {d : Char} (rest : List Char)
    (h : d ∈ escapeList) :
    tokLoop ctx st ('\\' :: d :: rest) = tokLoop ctx (appendChar d st) rest := by
  show (if d ∈ escapeList then tokLoopAux ctx (rest.length + 1) (appendChar d st) rest
        else Except.error RTError.invalidEscape) = _
  rw [if_pos h]
  exact tokLoopAux_fuel ctx (rest.length + 1) rest _ (by omega)

theorem tokLoop_escape_bad (ctx : Ctx) (st : TokState) {d : Char} (rest : List Char)
    (h : d ∉ escapeList) :
    tokLoop ctx st ('\\' :: d :: rest) = .error .invalidEscape := by
  show (if d ∈ escapeList then tokLoopAux ctx (rest.length + 1) (appendChar d st) rest
        else Except.error RTError.invalidEscape) = _
  rw [if_neg h]

theorem tokLoop_escape_end (ctx : Ctx) (st : TokState) :
    tokLoop ctx st ['\\'] = .error .invalidEscape := rfl

theorem tokLoop_tag (ctx : Ctx) (st : TokState) {rest body after : List Char}
    (h : splitAtRBracket rest = some (body, after)) :
    tokLoop ctx st ('[' :: rest) =
      (handleTag ctx st body).bind (fun st2 => tokLoop ctx st2 after) := by
  show (match splitAtRBracket rest with
        | none => Except.error RTError.unterminatedTag
        | some (body, after) =>
          (handleTag ctx st body).bind fun st2 => tokLoopAux ctx rest.length st2 after) = _
  rw [h]
  cases hht : handleTag ctx st body with
  | error e => simp only [hht, Except.bind]
  | ok st2 =>
    simp only [hht, Except.bind]
    exact tokLoopAux_fuel ctx rest.length after st2 (splitAtRBracket_length h)

theorem tokLoop_tag_none (ctx : Ctx) (st : TokState) {rest : List Char}
    (h : splitAtRBracket rest = none) :
    tokLoop ctx st ('[' :: rest) = .error .unterminatedTag := by
  show (match splitAtRBracket rest with
        | none => Except.error RTError.unterminatedTag
        | some (body, after) =>
          (handleTag ctx st body).bind fun st2 => tokLoopAux ctx rest.length st2 after) = _
  rw [h]

/-- A clean scan of a prefix composes: if the loop accepts `p` ending in
state `st2`, then scanning `p ++ r` runs the loop on `r` from `st2`. -/
theorem tokLoop_append (ctx : Ctx) :
    ∀ (n : Nat) (p : List Char), p.length ≤ n →
      ∀ (st st2 : TokState) (r : List Char), tokLoop ctx st p = .ok st2 →
        tokLoop ctx st (p ++ r) = tokLoop ctx st2 r := by
  intro n
  induction n with
  | zero =>
    intro p hp st st2 r h
    have : p = [] := List.length_eq_zero.mp (Nat.le_zero.mp hp)
    subst this
    cases h
    rfl
  | succ n IH =>
    intro p hp st st2 r h
    match p with
    | [] => cases h; rfl
    | c :: p2 =>
      have hp2 : p2.length ≤ n := by simp at hp; omega
      by_cases h1 : c = '/'
      · subst h1
        rw [tokLoop_italic] at h
        rw [List.cons_append, tokLoop_italic]
        exact IH p2 hp2 _ _ r h
      · by_cases h2 : c = '*'
        · subst h2
          rw [tokLoop_bold] at h
          rw [List.cons_append, tokLoop_bold]
          exact IH p2 hp2 _ _ r h
        · by_cases h3 : c = '_'
          · subst h3
            rw [tokLoop_underline] at h
            rw [List.cons_append, tokLoop_underline]
            exact IH p2 hp2 _ _ r h
          · by_cases h4 : c = '~'
            · subst h4
              rw [tokLoop_strike] at h
              rw [List.cons_append, tokLoop_strike]
              exact IH p2 hp2 _ _ r h
            · by_cases h5 : c = '['
              · subst h5
                rcases hsp : splitAtRBracket p2 with _ | ⟨body, after⟩
                · rw [tokLoop_tag_none ctx st hsp] at h
                  cases h
                · rw [tokLoop_tag ctx st hsp] at h
                  obtain ⟨h6, h7⟩ := splitAtRBracket_eq_some hsp
                  subst h6
                  cases hht : handleTag ctx st body with
                  | error e => rw [hht] at h; cases h
                  | ok st3 =>
                    rw [hht] at h
                    simp only [Except.bind] at h
                    rw [List.cons_append, List.append_assoc, List.cons_append,
                      tokLoop_tag ctx st (splitAtRBracket_append h7 (after ++ r)), hht]
                    simp only [Except.bind]
                    have hal : after.length ≤ n := by simp at hp; omega
                    exact IH after hal _ _ r h
              · by_cases h6 : c = '\\'
                · subst h6
                  match p2 with
                  | [] => rw [tokLoop_escape_end] at h; cases h
                  | d :: p3 =>
                    by_cases hd : d ∈ escapeList
                    · rw [tokLoop_escape ctx st p3 hd] at h
                      rw [List.cons_append, List.cons_append, tokLoop_escape ctx st (p3 ++ r) hd]
                      have hp3 : p3.length ≤ n := by simp at hp; omega
                      exact IH p3 hp3 _ _ r h
                    · rw [tokLoop_escape_bad ctx st p3 hd] at h
                      cases h
                · by_cases h7 : c = '\n'
                  · subst h7
                    rw [tokLoop_newline] at h
                    rw [List.cons_append, tokLoop_newline]
                    exact IH p2 hp2 _ _ r h
                  · have hc : c ∉ ['/', '*', '_', '~', '[', '\\', '\n'] := by
                      simp [h1, h2, h3, h4, h5, h6, h7]
                    rw [tokLoop_plain ctx st p2 hc] at h
                    rw [List.cons_append, tokLoop_plain ctx st (p2 ++ r) hc]
                    exact IH p2 hp2 _ _ r h

/-- Specialization of `tokLoop_append` with the length bound chosen. -/
theorem tokLoop_append_of_ok (ctx : Ctx) {p : List Char} {st st2 : TokState}
    (r : List Char) (h : tokLoop ctx st p = .ok st2) :
    tokLoop ctx st (p ++ r) = tokLoop ctx st2 r :=
  tokLoop_append ctx p.length p le_rfl st st2 r h

/-! Facts about `modifyLast`, rounding, and the layout folds. -/

theorem modifyLast_concat (f : α → α) : ∀ (l : List α) (x : α),
    modifyLast f (l ++ [x]) = l ++ [f x] := by
  intro l
  induction l with
  | nil => intro x; rfl
  | cons a t ih =>
    intro x
    cases t with
    | nil => rfl
    | cons b t2 =>
      show a :: modifyLast f ((b :: t2) ++ [x]) = _
      rw [ih x]
      rfl

theorem croundf_intCast (n : ℤ) : croundf ((n : ℚ)) = n := by
  unfold croundf
  by_cases h : ((n : ℚ)) < 0
  · rw [if_pos h]
    have : (-(n : ℚ)) = ((-n : ℤ) : ℚ) := by push_cast; ring
    rw [this, Int.floor_int_add]
    norm_num
  · rw [if_neg h]
    have : ((n : ℚ) + 1 / 2) = ((n : ℤ) : ℚ) + 1 / 2 := by norm_num
    rw [this, Int.floor_int_add]
    norm_num

theorem croundf_zero : croundf 0 = 0 := by
  have := croundf_intCast 0
  simpa using this

theorem layChunk_font_none (M : Measurer) (size : Nat) (accsp : LayoutAcc × ℚ)
    {ch : Chunk} (h : ch.fmt.font = none) :
    layChunk M size accsp ch = .error .missingFont := by
  simp [layChunk, h]

theorem layChunk_font_some (M : Measurer) (size : Nat) (acc : LayoutAcc) (sp : ℚ)
    {ch : Chunk} {f : String} (h : ch.fmt.font = some f) :
    layChunk M size (acc, sp) ch =
      .ok (layStep M size acc ch, max sp (M.lineSpacing f size)) := by
  simp [layChunk, h]

/-- A chunk list containing a fontless chunk makes the chunk loop fail with
`missingFont`. -/
theorem layChunks_error (M : Measurer) (size : Nat) :
    ∀ (chunks : List Chunk) (accsp : LayoutAcc × ℚ),
      (∃ ch ∈ chunks, ch.fmt.font = none) →
      layChunks M size accsp chunks = .error .missingFont := by
  intro chunks
  induction chunks with
  | nil => intro accsp h; simp at h
  | cons ch t ih =>
    intro accsp hex
    rcases hch : ch.fmt.font with _ | f
    · simp [layChunks, layChunk_font_none M size accsp hch, Except.bind]
    · obtain ⟨ch2, hmem, hnone⟩ := hex
      have hmem2 : ch2 ∈ t := by
        rcases List.mem_cons.mp hmem with h | h
        · subst h; rw [hch] at hnone; cases hnone
        · exact h
      obtain ⟨acc, sp⟩ := accsp
      rw [layChunks, layChunk_font_some M size acc sp hch]
      simp only [Except.bind]
      exact ih _ ⟨ch2, hmem2, hnone⟩

/-- A chunk list whose chunks all have fonts lays out without error. -/
theorem layChunks_ok (M : Measurer) (size : Nat) :
    ∀ (chunks : List Chunk) (accsp : LayoutAcc × ℚ),
      (∀ ch ∈ chunks, ch.fmt.font ≠ none) →
      ∃ out, layChunks M size accsp chunks = .ok out := by
  intro chunks
  induction chunks with
  | nil => intro accsp _; exact ⟨accsp, rfl⟩
  | cons ch t ih =>
    intro accsp hall
    rcases hch : ch.fmt.font with _ | f
    · exact absurd hch (hall ch (List.mem_cons_self ch t))
    · obtain ⟨acc, sp⟩ := accsp
      obtain ⟨out, hout⟩ := ih (layStep M size acc ch, max sp (M.lineSpacing f size))
        (fun c hc => hall c (List.mem_cons_of_mem ch hc))
      refine ⟨out, ?_⟩
      rw [layChunks, layChunk_font_some M size acc sp hch]
      simp only [Except.bind]
      exact hout

theorem le_foldl_max (g : PosRun → ℚ) :
    ∀ (l : List PosRun) (w : ℚ), w ≤ l.foldl (fun w pr => max w (g pr)) w := by
  intro l
  induction l with
  | nil => intro w; exact le_rfl
  | cons pr t ih =>
    intro w
    calc w ≤ max w (g pr) := le_max_left _ _
    _ ≤ t.foldl (fun w pr => max w (g pr)) (max w (g pr)) := ih _

theorem foldl_max_mono (g : PosRun → ℚ) :
    ∀ (l : List PosRun) {w w2 : ℚ}, w ≤ w2 →
      l.foldl (fun w pr => max w (g pr)) w ≤ l.foldl (fun w pr => max w (g pr)) w2 := by
  intro l
  induction l with
  | nil => intro w w2 h; exact h
  | cons pr t ih => intro w w2 h; exact ih (max_le_max h le_rfl)

/-- Structural invariant of the chunk loop: the bounds' left/top never
change, the positioned runs extend by exactly the placed chunks, and the
bounds' width/height are the running maxima over the new runs' right/bottom
edges relative to the bounds' origin. -/
theorem layChunks_invariant (M : Measurer) (size : Nat) :
    ∀ (chunks : List Chunk) (acc : LayoutAcc) (sp : ℚ) (acc2 : LayoutAcc) (sp2 : ℚ),
      layChunks M size (acc, sp) chunks = .ok (acc2, sp2) →
      acc2.bounds.left = acc.bounds.left ∧ acc2.bounds.top = acc.bounds.top ∧
      ∃ Δ, acc2.texts = acc.texts ++ Δ ∧
        acc2.bounds.width =
          Δ.foldl (fun w pr => max w (extRight M size pr - acc.bounds.left)) acc.bounds.width ∧
        acc2.bounds.height =
          Δ.foldl (fun h pr => max h (extBottom M size pr - acc.bounds.top)) acc.bounds.height := by
  intro chunks
  induction chunks with
  | nil =>
    intro acc sp acc2 sp2 h
    cases h
    exact ⟨rfl, rfl, [], by simp⟩
  | cons ch t ih =>
    intro acc sp acc2 sp2 h
    rcases hch : ch.fmt.font with _ | f
    · rw [layChunks, layChunk_font_none M size (acc, sp) hch] at h
      cases h
    · rw [layChunks, layChunk_font_some M size acc sp hch] at h
      simp only [Except.bind] at h
      obtain ⟨hl, ht, Δ2, htx, hw, hh⟩ := ih (layStep M size acc ch) _ acc2 sp2 h
      have hsl : (layStep M size acc ch).bounds.left = acc.bounds.left := by simp [layStep]
      have hst : (layStep M size acc ch).bounds.top = acc.bounds.top := by simp [layStep]
      refine ⟨by rw [hl, hsl], by rw [ht, hst], ⟨ch, placedAt acc⟩ :: Δ2, ?_, ?_, ?_⟩
      · rw [htx]; simp [layStep]
      · rw [hw, hsl]
        simp only [List.foldl_cons]
        congr 1
      · rw [hh, hst]
        simp only [List.foldl_cons]
        congr 1

/-- The cursor's y coordinate is unchanged by the chunk loop once it is an
integer. -/
theorem layChunks_posY_int (M : Measurer) (size : Nat) :
    ∀ (chunks : List Chunk) (acc : LayoutAcc) (sp : ℚ) (acc2 : LayoutAcc) (sp2 : ℚ)
      (k : ℤ), acc.pos.2 = (k : ℚ) →
      layChunks M size (acc, sp) chunks = .ok (acc2, sp2) → acc2.pos.2 = (k : ℚ) := by
  intro chunks
  induction chunks with
  | nil => intro acc sp acc2 sp2 k hk h; cases h; exact hk
  | cons ch t ih =>
    intro acc sp acc2 sp2 k hk h
    rcases hch : ch.fmt.font with _ | f
    · rw [layChunks, layChunk_font_none M size (acc, sp) hch] at h
      cases h
    · rw [layChunks, layChunk_font_some M size acc sp hch] at h
      simp only [Except.bind] at h
      refine ih (layStep M size acc ch) _ acc2 sp2 k ?_ h
      show ((croundf acc.pos.2 : ℤ) : ℚ) = (k : ℚ)
      rw [hk, croundf_intCast]

/-- After laying out a nonempty chunk list, the cursor's y is the rounding
of the y at which the line was entered. -/
theorem layChunks_posY_round (M : Measurer) (size : Nat)
    (chunks : List Chunk) (acc : LayoutAcc) (sp : ℚ) (acc2 : LayoutAcc) (sp2 : ℚ)
    (hne : chunks ≠ [])
    (h : layChunks M size (acc, sp) chunks = .ok (acc2, sp2)) :
    acc2.pos.2 = ((croundf acc.pos.2 : ℤ) : ℚ) := by
  match chunks, hne with
  | ch :: t, _ =>
    rcases hch : ch.fmt.font with _ | f
    · rw [layChunks, layChunk_font_none M size (acc, sp) hch] at h
      cases h
    · rw [layChunks, layChunk_font_some M size acc sp hch] at h
      simp only [Except.bind] at h
      exact layChunks_posY_int M size t _ _ acc2 sp2 (croundf acc.pos.2) rfl h

/-- The spacing accumulated by the chunk loop is the running maximum of the
fonts' line spacings. -/
theorem layChunks_spacing (M : Measurer) (size : Nat) :
    ∀ (chunks : List Chunk) (acc : LayoutAcc) (sp : ℚ) (acc2 : LayoutAcc) (sp2 : ℚ),
      layChunks M size (acc, sp) chunks = .ok (acc2, sp2) →
      sp2 = chunks.foldl (fun s ch => max s (M.lineSpacing (ch.fmt.font.getD "") size)) sp := by
  intro chunks
  induction chunks with
  | nil => intro acc sp acc2 sp2 h; cases h; rfl
  | cons ch t ih =>
    intro acc sp acc2 sp2 h
    rcases hch : ch.fmt.font with _ | f
    · rw [layChunks, layChunk_font_none M size (acc, sp) hch] at h
      cases h
    · rw [layChunks, layChunk_font_some M size acc sp hch] at h
      simp only [Except.bind] at h
      rw [List.foldl_cons]
      have := ih (layStep M size acc ch) _ acc2 sp2 h
      rw [this, hch]
      rfl

theorem layLines_single (M : Measurer) (size : Nat) (acc : LayoutAcc) (ln : Line) :
    layLines M size acc [ln] = (layLine M size acc ln).map Prod.fst := rfl

theorem layLines_cons (M : Measurer) (size : Nat) (acc : LayoutAcc) (ln : Line)
    {rest : List Line} (h : rest ≠ []) :
    layLines M size acc (ln :: rest) =
      (layLine M size acc ln).bind (fun a =>
        layLines M size { a.1 with pos := ((0 : ℚ), a.1.pos.2 + a.2) } rest) := by
  match rest, h with
  | b :: t, _ => rfl

/-- Structural invariant of the line loop, mirroring `layChunks_invariant`
over all lines: left/top fixed, runs extended, width/height are running
maxima over the new runs' edges. -/
theorem layLines_invariant (M : Measurer) (size : Nat) :
    ∀ (lines : List Line) (acc acc2 : LayoutAcc),
      layLines M size acc lines = .ok acc2 →
      acc2.bounds.left = acc.bounds.left ∧ acc2.bounds.top = acc.bounds.top ∧
      ∃ Δ, acc2.texts = acc.texts ++ Δ ∧
        acc2.bounds.width =
          Δ.foldl (fun w pr => max w (extRight M size pr - acc.bounds.left)) acc.bounds.width ∧
        acc2.bounds.height =
          Δ.foldl (fun h pr => max h (extBottom M size pr - acc.bounds.top)) acc.bounds.height := by
  intro lines
  induction lines with
  | nil =>
    intro acc acc2 h
    cases h
    exact ⟨rfl, rfl, [], by simp⟩
  | cons ln rest ih =>
    intro acc acc2 h
    cases hr : rest with
    | nil =>
      subst hr
      rw [layLines_single] at h
      cases hl : layLine M size acc ln with
      | error e => rw [hl] at h; cases h
      | ok a =>
        rw [hl] at h
        cases h
        exact layChunks_invariant M size ln.chunks acc 0 a.1 a.2 hl
    | cons ln2 rest2 =>
      subst hr
      have hne : ln2 :: rest2 ≠ [] := by simp
      rw [layLines_cons M size acc ln hne] at h
      cases hl : layLine M size acc ln with
      | error e => rw [hl] at h; cases h
      | ok a =>
        rw [hl] at h
        simp only [Except.bind] at h
        obtain ⟨hl1, ht1, Δ1, htx1, hw1, hh1⟩ :=
          layChunks_invariant M size ln.chunks acc 0 a.1 a.2 hl
        obtain ⟨hl2, ht2, Δ2, htx2, hw2, hh2⟩ := ih _ acc2 h
        simp only at hl2 ht2 htx2 hw2 hh2
        refine ⟨by rw [hl2, hl1], by rw [ht2, ht1], Δ1 ++ Δ2, ?_, ?_, ?_⟩
        · rw [htx2, htx1, List.append_assoc]
        · rw [List.foldl_append, ← hw1, hw2, hl1]
        · rw [List.foldl_append, ← hh1, hh2, ht1]

/-- A line list containing a fontless chunk makes the line loop fail with
`missingFont`: the layout loop iterates unconditionally until the first
fontless chunk and throws there. -/
theorem layLines_error (M : Measurer) (size : Nat) :
    ∀ (lines : List Line) (acc : LayoutAcc),
      (∃ ln ∈ lines, ∃ ch ∈ ln.chunks, ch.fmt.font = none) →
      layLines M size acc lines = .error .missingFont := by
  intro lines
  induction lines with
  | nil => intro acc h; simp at h
  | cons ln rest ih =>
    intro acc hex
    by_cases hln : ∃ ch ∈ ln.chunks, ch.fmt.font = none
    · have hle : layLine M size acc ln = .error .missingFont := by
        rw [layLine]; exact layChunks_error M size ln.chunks (acc, 0) hln
      cases hr : rest with
      | nil => subst hr; rw [layLines_single, hle]; rfl
      | cons ln2 rest2 =>
        subst hr
        rw [layLines_cons M size acc ln (by simp), hle]
        rfl
    · obtain ⟨ln2, hmem, hch⟩ := hex
      have hln2 : ln2 ∈ rest := by
        rcases List.mem_cons.mp hmem with h | h
        · subst h; exact absurd hch hln
        · exact h
      have hall : ∀ ch ∈ ln.chunks, ch.fmt.font ≠ none := by
        intro c hc he
        exact hln ⟨c, hc, he⟩
      obtain ⟨out, hout⟩ := layChunks_ok M size ln.chunks (acc, 0) hall
      cases hr : rest with
      | nil => subst hr; cases hln2
      | cons ln3 rest3 =>
        subst hr
        rw [layLines_cons M size acc ln (by simp)]
        rw [layLine, hout]
        simp only [Except.bind]
        exact ih _ ⟨ln2, hln2, hch⟩

theorem placedAt_zero {acc : LayoutAcc} (h : acc.pos = ((0 : ℚ), (0 : ℚ))) :
    placedAt acc = ((0 : ℚ), (0 : ℚ)) := by
  simp [placedAt, h, croundf_zero]

/-- While the cursor sits at the origin, the first run that layout places is
placed at the origin: the output runs are either unchanged or extended by a
run with origin `(0, 0)` followed by others. -/
theorem layLines_head_origin (M : Measurer) (size : Nat) :
    ∀ (lines : List Line) (acc acc2 : LayoutAcc),
      acc.pos = ((0 : ℚ), (0 : ℚ)) → layLines M size acc lines = .ok acc2 →
      acc2.texts = acc.texts ∨
        ∃ ch Δ, acc2.texts = acc.texts ++ ⟨ch, ((0 : ℚ), (0 : ℚ))⟩ :: Δ := by
  intro lines
  induction lines with
  | nil => intro acc acc2 hpos h; cases h; exact Or.inl rfl
  | cons ln rest ih =>
    intro acc acc2 hpos h
    rcases hcs : ln.chunks with _ | ⟨ch, t⟩
    · have hll : layLine M size acc ln = .ok (acc, 0) := by rw [layLine, hcs]; rfl
      cases hr : rest with
      | nil => subst hr; rw [layLines_single, hll] at h; cases h; exact Or.inl rfl
      | cons ln2 rest2 =>
        subst hr
        rw [layLines_cons M size acc ln (by simp), hll] at h
        simp only [Except.bind] at h
        exact ih { pos := ((0 : ℚ), acc.pos.2 + 0), bounds := acc.bounds, texts := acc.texts }
          acc2 (by simp [hpos]) h
    · cases hl : layLine M size acc ln with
      | error e =>
        cases hr : rest with
        | nil => subst hr; rw [layLines_single, hl] at h; cases h
        | cons ln2 rest2 =>
          subst hr
          rw [layLines_cons M size acc ln (by simp), hl] at h
          simp only [Except.bind] at h
          cases h
      | ok a =>
        obtain ⟨a1, sp1⟩ := a
        rw [layLine, hcs] at hl
        rcases hch : ch.fmt.font with _ | f
        · rw [layChunks, layChunk_font_none M size (acc, 0) hch] at hl
          cases hl
        · rw [layChunks, layChunk_font_some M size acc 0 hch] at hl
          simp only [Except.bind] at hl
          obtain ⟨_, _, Δ1, htx1, _, _⟩ := layChunks_invariant M size t _ _ a1 sp1 hl
          have hstep : (layStep M size acc ch).texts =
              acc.texts ++ [⟨ch, ((0 : ℚ), (0 : ℚ))⟩] := by
            simp [layStep, placedAt_zero hpos]
          cases hr : rest with
          | nil =>
            subst hr
            rw [layLines_single, layLine, hcs] at h
            rw [layChunks, layChunk_font_some M size acc 0 hch] at h
            simp only [Except.bind] at h
            rw [hl] at h
            cases h
            refine Or.inr ⟨ch, Δ1, ?_⟩
            rw [htx1, hstep, List.append_assoc]
            rfl
          | cons ln2 rest2 =>
            subst hr
            rw [layLines_cons M size acc ln (by simp), layLine, hcs] at h
            rw [layChunks, layChunk_font_some M size acc 0 hch] at h
            simp only [Except.bind] at h
            rw [hl] at h
            simp only [Except.bind] at h
            obtain ⟨_, _, Δ2, htx2, _, _⟩ := layLines_invariant M size (ln2 :: rest2) _ acc2 h
            simp only at htx2
            refine Or.inr ⟨ch, Δ1 ++ Δ2, ?_⟩
            rw [htx2, htx1, hstep]
            simp [List.append_assoc]

/-- Appending a plain code point appends it to the text of the last chunk of
the last line. -/
theorem appendText_concat (c : Char) (init : List Line) (cs : List Chunk)
    (ch : Chunk) (al : Alignment) :
    appendText c (init ++ [⟨cs ++ [ch], al⟩]) =
      init ++ [⟨cs ++ [{ ch with text := ch.text ++ [c] }], al⟩] := by
  rw [appendText, modifyLast_concat]
  simp [modifyLast_concat]

/-- The new-run half of `apply_formatting`: with text already in the current
chunk, a style change pushes exactly one fresh empty chunk carrying the new
style. -/
theorem apply_formatting_push (fmt : Format) (init : List Line) (cs : List Chunk)
    {ch : Chunk} (al : Alignment) (h : ch.text ≠ []) :
    apply_formatting fmt (init ++ [⟨cs ++ [ch], al⟩]) =
      init ++ [⟨(cs ++ [ch]) ++ [⟨fmt, []⟩], al⟩] := by
  rw [apply_formatting, modifyLast_concat]
  simp [List.getLast?_concat, h]

/-- The overwrite half of `apply_formatting`: with no text in the current
chunk, a style change overwrites the current chunk's style in place, keeping
the chunk count unchanged. -/
theorem apply_formatting_overwrite (fmt : Format) (init : List Line) (cs : List Chunk)
    {ch : Chunk} (al : Alignment) (h : ch.text = []) :
    apply_formatting fmt (init ++ [⟨cs ++ [ch], al⟩]) =
      init ++ [⟨cs ++ [{ ch with fmt := fmt }], al⟩] := by
  rw [apply_formatting, modifyLast_concat]
  simp [List.getLast?_concat, h, modifyLast_concat]

/-! Splitting a tag body at the first space. -/

theorem takeWhile_append_space :
    ∀ (cmd : List Char), ' ' ∉ cmd → ∀ (arg : List Char),
      ((cmd ++ ' ' :: arg).takeWhile (fun c => c ≠ ' ')) = cmd := by
  intro cmd
  induction cmd with
  | nil => intro _ arg; simp [List.takeWhile_cons]
  | cons c t ih =>
    intro h arg
    simp only [List.mem_cons, not_or] at h
    rw [List.cons_append, List.takeWhile_cons, if_pos (by simp [Ne.symm h.1]), ih h.2 arg]

theorem drop_append_space (cmd arg : List Char) :
    ((cmd ++ ' ' :: arg).drop (cmd.length + 1)) = arg := by
  have e1 : cmd ++ ' ' :: arg = (cmd ++ [' ']) ++ arg := by simp
  have e2 : cmd.length + 1 = (cmd ++ [' ']).length := by simp
  rw [e1, e2, List.drop_left]

/-! Unfolding lemmas for `handleTag`, one per recognized command plus the
silently-ignored fallthrough. -/

theorem handleTag_fill_color (ctx : Ctx) (st : TokState) (arg : List Char) :
    handleTag ctx st ("fill-color".toList ++ ' ' :: arg) =
      .ok ⟨{ st.fmt with fill_color := color_from_string ctx.reg (String.mk arg) },
        apply_formatting { st.fmt with fill_color := color_from_string ctx.reg (String.mk arg) }
          st.lines⟩ := by
  rw [handleTag, takeWhile_append_space "fill-color".toList (by decide) arg,
    drop_append_space]
  rw [if_pos rfl]

theorem handleTag_outline_color (ctx : Ctx) (st : TokState) (arg : List Char) :
    handleTag ctx st ("outline-color".toList ++ ' ' :: arg) =
      .ok ⟨{ st.fmt with outline_color := color_from_string ctx.reg (String.mk arg) },
        apply_formatting { st.fmt with outline_color := color_from_string ctx.reg (String.mk arg) }
          st.lines⟩ := by
  rw [handleTag, takeWhile_append_space "outline-color".toList (by decide) arg,
    drop_append_space]
  rw [if_neg (by decide), if_pos rfl]

theorem handleTag_outline_thickness (ctx : Ctx) (st : TokState) (arg : List Char)
    {v : ℚ} (hv : stofQ (String.mk arg) = some v) :
    handleTag ctx st ("outline-thickness".toList ++ ' ' :: arg) =
      .ok ⟨{ st.fmt with outline_thickness := v },
        apply_formatting { st.fmt with outline_thickness := v } st.lines⟩ := by
  rw [handleTag, takeWhile_append_space "outline-thickness".toList (by decide) arg,
    drop_append_space]
  rw [if_neg (by decide), if_neg (by decide), if_pos rfl, hv]

theorem handleTag_font (ctx : Ctx) (st : TokState) (arg : List Char)
    (hr : ctx.resolveFont (String.mk arg) = true) :
    handleTag ctx st ("font".toList ++ ' ' :: arg) =
      .ok ⟨{ st.fmt with font := some (String.mk arg) },
        apply_formatting { st.fmt with font := some (String.mk arg) } st.lines⟩ := by
  rw [handleTag, takeWhile_append_space "font".toList (by decide) arg, drop_append_space]
  rw [if_neg (by decide), if_neg (by decide), if_neg (by decide), if_pos rfl, if_pos hr]

theorem handleTag_unknown (ctx : Ctx) (st : TokState) {body : List Char}
    (h1 : body.takeWhile (fun c => c ≠ ' ') ≠ "fill-color".toList)
    (h2 : body.takeWhile (fun c => c ≠ ' ') ≠ "outline-color".toList)
    (h3 : body.takeWhile (fun c => c ≠ ' ') ≠ "outline-thickness".toList)
    (h4 : body.takeWhile (fun c => c ≠ ' ') ≠ "font".toList)
    (h5 : body.takeWhile (fun c => c ≠ ' ') ≠ "align".toList) :
    handleTag ctx st body = .ok st := by
  rw [handleTag]
  simp only [if_neg h1, if_neg h2, if_neg h3, if_neg h4, if_neg h5]

/-- An alignment mutation changes no line's chunk list. -/
theorem modifyLast_alignment_chunks (a : Alignment) :
    ∀ (lines : List Line),
      (modifyLast (fun ln => { ln with alignment := a }) lines).map Line.chunks =
        lines.map Line.chunks := by
  intro lines
  induction lines with
  | nil => rfl
  | cons x t ih =>
    cases t with
    | nil => rfl
    | cons y t2 =>
      show (x :: modifyLast (fun ln => { ln with alignment := a }) (y :: t2)).map Line.chunks = _
      simp only [List.map_cons]
      rw [show (modifyLast (fun ln => { ln with alignment := a }) (y :: t2)).map Line.chunks =
        (y :: t2).map Line.chunks from ih]
      simp

/-! Bit-level facts about `color_from_hex`: the or with `0xff000000` forces
the alpha channel to 255 and leaves the three color channels unchanged. -/

theorem color_from_hex_alpha (h : Nat) : (color_from_hex h).a = 255 := by
  show ((h ||| 0xff000000) >>> 24) &&& 0xff = 255
  have e1 : (0xff000000 : Nat) = 255 <<< 24 := by decide
  rw [e1]
  apply Nat.eq_of_testBit_eq
  intro i
  simp only [Nat.testBit_and, Nat.testBit_shiftRight, Nat.testBit_or, Nat.testBit_shiftLeft]
  have e2 : 24 + i - 24 = i := by omega
  have e3 : decide (24 ≤ 24 + i) = true := by simp
  rw [e2, e3]
  cases h3 : Nat.testBit 255 i <;> simp

theorem color_from_hex_rgb (h : Nat) :
    (color_from_hex h).r = (h >>> 16) &&& 0xff ∧
    (color_from_hex h).g = (h >>> 8) &&& 0xff ∧
    (color_from_hex h).b = h &&& 0xff := by
  have e1 : (0xff000000 : Nat) = 255 <<< 24 := by decide
  have hbit : ∀ i, 8 ≤ i → Nat.testBit 255 i = false := by
    intro i hi
    apply Nat.testBit_lt_two_pow
    calc (255 : Nat) < 2 ^ 8 := by norm_num
    _ ≤ 2 ^ i := Nat.pow_le_pow_right (by norm_num) hi
  refine ⟨?_, ?_, ?_⟩
  · show ((h ||| 0xff000000) >>> 16) &&& 0xff = (h >>> 16) &&& 0xff
    rw [e1]
    apply Nat.eq_of_testBit_eq
    intro i
    simp only [Nat.testBit_and, Nat.testBit_shiftRight, Nat.testBit_or, Nat.testBit_shiftLeft]
    by_cases hi : i < 8
    · have e3 : decide (24 ≤ 16 + i) = false := by
        rw [decide_eq_false_iff_not]
        omega
      rw [e3]
      simp
    · rw [hbit i (by omega)]
      simp
  · show ((h ||| 0xff000000) >>> 8) &&& 0xff = (h >>> 8) &&& 0xff
    rw [e1]
    apply Nat.eq_of_testBit_eq
    intro i
    simp only [Nat.testBit_and, Nat.testBit_shiftRight, Nat.testBit_or, Nat.testBit_shiftLeft]
    by_cases hi : i < 8
    · have e3 : decide (24 ≤ 8 + i) = false := by
        rw [decide_eq_false_iff_not]
        omega
      rw [e3]
      simp
    · rw [hbit i (by omega)]
      simp
  · show ((h ||| 0xff000000) &&& 0xff) = h &&& 0xff
    rw [e1]
    apply Nat.eq_of_testBit_eq
    intro i
    simp only [Nat.testBit_and, Nat.testBit_or, Nat.testBit_shiftLeft]
    by_cases hi : i < 8
    · have e3 : decide (24 ≤ i) = false := by
        rw [decide_eq_false_iff_not]
        omega
      rw [e3]
      simp
    · rw [hbit i (by omega)]
      simp

/-! Claim theorems. -/

/-- C3: a backslash escape appends the literal escaped character to the
current run's text exactly when the escaped character is one of the six
control characters `/`, `*`, `_`, `~`, `[`, `\`; escaping any other
character — and a backslash that is the last code point of the input —
aborts tokenization with `invalidEscape`, yielding no result. -/
theorem escape_semantics :
    (∀ (ctx : Ctx) (st : TokState) (X : Char) (rest : List Char), X ∈ escapeList →
        tokLoop ctx st ('\\' :: X :: rest) = tokLoop ctx (appendChar X st) rest) ∧
    (∀ (ctx : Ctx) (st : TokState) (X : Char) (rest : List Char), X ∉ escapeList →
        tokLoop ctx st ('\\' :: X :: rest) = .error .invalidEscape) ∧
    (∀ (ctx : Ctx) (st : TokState), tokLoop ctx st ['\\'] = .error .invalidEscape) ∧
    (∀ (fmt : Format) (X : Char) (init : List Line) (cs : List Chunk) (ch : Chunk)
        (al : Alignment),
        appendChar X ⟨fmt, init ++ [⟨cs ++ [ch], al⟩]⟩ =
          ⟨fmt, init ++ [⟨cs ++ [{ ch with text := ch.text ++ [X] }], al⟩]⟩) ∧
    escapeList = ['/', '*', '_', '~', '[', '\\'] := by
  refine ⟨?_, ?_, ?_, ?_, rfl⟩
  · intro ctx st X rest h
    exact tokLoop_escape ctx st rest h
  · intro ctx st X rest h
    exact tokLoop_escape_bad ctx st rest h
  · intro ctx st
    exact tokLoop_escape_end ctx st
  · intro fmt X init cs ch al
    rw [appendChar]
    rw [show appendText X (init ++ [⟨cs ++ [ch], al⟩]) =
      init ++ [⟨cs ++ [{ ch with text := ch.text ++ [X] }], al⟩] from
      appendText_concat X init cs ch al]

theorem escape_semantics_witness :
    tokLoop sampleCtx initState ['\\', '*'] = tokLoop sampleCtx (appendChar '*' initState) [] ∧
    tokLoop sampleCtx initState ['\\', 'q'] = .error .invalidEscape :=
  ⟨escape_semantics.1 sampleCtx initState '*' [] (by decide),
   escape_semantics.2.1 sampleCtx initState 'q' [] (by decide)⟩

/-- C4 counterexample: the input `"\q["` contains an unescaped `[` with no
subsequent `]`, yet tokenization fails with `invalidEscape`, not
`unterminatedTag` — the earlier invalid escape preempts the tag error. -/
theorem unterminated_tag_cex :
    ('[' ∈ "\\q[".toList ∧ ']' ∉ "\\q[".toList) ∧
    set_source sampleCtx "\\q[".toList = .error .invalidEscape ∧
    (Except.error RTError.invalidEscape ≠
      (.error .unterminatedTag : Except RTError TokState)) :=
  ⟨by decide, by decide, by decide⟩

/-- C4 (amended): when the scan reaches an unescaped `[` — that is, the
prefix before it tokenizes cleanly — and no `]` follows anywhere in the
rest of the input, tokenization fails with `unterminatedTag` and returns no
runs. -/
theorem unterminated_tag_error (ctx : Ctx) (p : List Char) (st : TokState) (q : List Char)
    (hp : tokLoop ctx initState p = .ok st) (hq : ']' ∉ q) :
    set_source ctx (p ++ '[' :: q) = .error .unterminatedTag := by
  rw [set_source, tokLoop_append_of_ok ctx ('[' :: q) hp]
  exact tokLoop_tag_none ctx st (splitAtRBracket_of_no_rbracket hq)

theorem unterminated_tag_witness :
    set_source sampleCtx ("abc ".toList ++ '[' :: "font x".toList) = .error .unterminatedTag :=
  unterminated_tag_error sampleCtx "abc ".toList
    ⟨defaultFormat, [⟨[⟨defaultFormat, "abc ".toList⟩], .left⟩]⟩
    "font x".toList (by decide) (by decide)

/-- C6: an unescaped newline ends the current line and starts a new line
whose initial run carries the style cursor at the time of the newline, so
every toggle, color, and font active before the newline persists onto the
next line's first run; illustrated on an input activating bold, a fill
color, and a font before its newline. -/
theorem newline_inherits_style :
    (∀ (ctx : Ctx) (st : TokState) (rest : List Char),
        tokLoop ctx st ('\n' :: rest) = tokLoop ctx (pushLine st) rest) ∧
    (∀ (st : TokState), (pushLine st).lines = st.lines ++ [⟨[⟨st.fmt, []⟩], .left⟩] ∧
        (pushLine st).fmt = st.fmt) ∧
    (∀ (ctx : Ctx) (p : List Char) (st : TokState) (q : List Char),
        tokLoop ctx initState p = .ok st →
        set_source ctx (p ++ '\n' :: q) = tokLoop ctx (pushLine st) q) ∧
    (set_source sampleCtx "*[fill-color ff0000][font f]a\nb".toList =
      .ok ⟨⟨some "f", boldBit, ⟨255, 0, 0, 255⟩, Color.white, 0⟩,
        [⟨[⟨⟨some "f", boldBit, ⟨255, 0, 0, 255⟩, Color.white, 0⟩, ['a']⟩], .left⟩,
         ⟨[⟨⟨some "f", boldBit, ⟨255, 0, 0, 255⟩, Color.white, 0⟩, ['b']⟩], .left⟩]⟩) := by
  refine ⟨?_, ?_, ?_, by decide⟩
  · intro ctx st rest
    exact tokLoop_newline ctx st rest
  · intro st
    exact ⟨rfl, rfl⟩
  · intro ctx p st q hp
    rw [set_source, tokLoop_append_of_ok ctx ('\n' :: q) hp, tokLoop_newline]

theorem newline_inherits_style_witness :
    set_source sampleCtx ("*".toList ++ '\n' :: "b".toList) =
      tokLoop sampleCtx
        (pushLine ⟨⟨none, boldBit, Color.white, Color.white, 0⟩,
          [⟨[⟨⟨none, boldBit, Color.white, Color.white, 0⟩, []⟩], .left⟩]⟩)
        "b".toList :=
  newline_inherits_style.2.2.1 sampleCtx "*".toList
    ⟨⟨none, boldBit, Color.white, Color.white, 0⟩,
      [⟨[⟨⟨none, boldBit, Color.white, Color.white, 0⟩, []⟩], .left⟩]⟩
    "b".toList (by decide)

/-- C7: toggling the same style bit twice is the identity on the style
cursor, so scanning two consecutive occurrences of any toggle control
character among `/`, `*`, `_`, `~` leaves the cursor equal to its value
before the first occurrence. -/
theorem double_toggle_identity :
    (∀ (bit : Nat) (st : TokState), (toggleFmt bit (toggleFmt bit st)).fmt = st.fmt) ∧
    (∀ (ctx : Ctx) (st : TokState) (c : Char) (rest : List Char), c ∈ ['/', '*', '_', '~'] →
        tokLoop ctx st (c :: c :: rest) =
          tokLoop ctx (toggleFmt (toggleBitOf c) (toggleFmt (toggleBitOf c) st)) rest) := by
  constructor
  · intro bit st
    simp [toggleFmt, Nat.xor_assoc, Nat.xor_self, Nat.xor_zero]
  · intro ctx st c rest h
    have hc : c = '/' ∨ c = '*' ∨ c = '_' ∨ c = '~' := by simpa using h
    rcases hc with rfl | rfl | rfl | rfl
    · rw [tokLoop_italic, tokLoop_italic]; rfl
    · rw [tokLoop_bold, tokLoop_bold]; rfl
    · rw [tokLoop_underline, tokLoop_underline]; rfl
    · rw [tokLoop_strike, tokLoop_strike]; rfl

theorem double_toggle_identity_witness :
    tokLoop sampleCtx initState ('*' :: '*' :: "x".toList) =
      tokLoop sampleCtx (toggleFmt (toggleBitOf '*') (toggleFmt (toggleBitOf '*') initState))
        "x".toList ∧
    (toggleFmt (toggleBitOf '*') (toggleFmt (toggleBitOf '*') initState)).fmt = initState.fmt :=
  ⟨double_toggle_identity.2 sampleCtx initState '*' "x".toList (by decide),
   double_toggle_identity.1 (toggleBitOf '*') initState⟩

/-- C10: a well-terminated tag with an argument whose command is not one of
fill-color, outline-color, outline-thickness, font, or align is silently
ignored: the scan consumes the tag through its closing bracket, raises no
error, and continues with the state — style cursor, run texts, and line
alignments — entirely unchanged. -/
theorem unknown_tag_ignored (ctx : Ctx) (st : TokState) (cmd arg rest : List Char)
    (hsp : ' ' ∉ cmd) (hc : ']' ∉ cmd) (ha : ']' ∉ arg)
    (h1 : cmd ≠ "fill-color".toList) (h2 : cmd ≠ "outline-color".toList)
    (h3 : cmd ≠ "outline-thickness".toList) (h4 : cmd ≠ "font".toList)
    (h5 : cmd ≠ "align".toList) :
    tokLoop ctx st ('[' :: (cmd ++ ' ' :: arg) ++ ']' :: rest) = tokLoop ctx st rest := by
  have hb : ']' ∉ cmd ++ ' ' :: arg := by
    simp only [List.mem_append, List.mem_cons, not_or]
    exact ⟨hc, by decide, ha⟩
  rw [show ('[' :: (cmd ++ ' ' :: arg) ++ ']' :: rest) =
    ('[' :: ((cmd ++ ' ' :: arg) ++ ']' :: rest)) from rfl]
  rw [tokLoop_tag ctx st (splitAtRBracket_append hb rest)]
  rw [handleTag_unknown ctx st
    (by rw [takeWhile_append_space cmd hsp arg]; exact h1)
    (by rw [takeWhile_append_space cmd hsp arg]; exact h2)
    (by rw [takeWhile_append_space cmd hsp arg]; exact h3)
    (by rw [takeWhile_append_space cmd hsp arg]; exact h4)
    (by rw [takeWhile_append_space cmd hsp arg]; exact h5)]
  rfl

theorem unknown_tag_ignored_witness :
    tokLoop sampleCtx initState ('[' :: ("foo".toList ++ ' ' :: "bar".toList) ++ ']' :: "x".toList) =
      tokLoop sampleCtx initState "x".toList :=
  unknown_tag_ignored sampleCtx initState "foo".toList "bar".toList "x".toList
    (by decide) (by decide) (by decide) (by decide) (by decide) (by decide) (by decide)
    (by decide)

/-- C2: every style-cursor mutation funnels through `apply_formatting`: when
the current run already has text a new run carrying the updated style is
pushed, and otherwise the current run's style is overwritten in place
without emitting an empty run; this holds for the four toggles and for the
fill-color, outline-color, outline-thickness, and font tags, while an
alignment tag mutates only the current line's alignment, changing no run
and leaving the style cursor untouched. -/
theorem run_splitting_policy :
    (∀ (fmt : Format) (init : List Line) (cs : List Chunk) (ch : Chunk) (al : Alignment),
        ch.text ≠ [] →
        apply_formatting fmt (init ++ [⟨cs ++ [ch], al⟩]) =
          init ++ [⟨(cs ++ [ch]) ++ [⟨fmt, []⟩], al⟩]) ∧
    (∀ (fmt : Format) (init : List Line) (cs : List Chunk) (ch : Chunk) (al : Alignment),
        ch.text = [] →
        apply_formatting fmt (init ++ [⟨cs ++ [ch], al⟩]) =
          init ++ [⟨cs ++ [{ ch with fmt := fmt }], al⟩]) ∧
    (∀ (ctx : Ctx) (st : TokState) (c : Char) (rest : List Char), c ∈ ['/', '*', '_', '~'] →
        tokLoop ctx st (c :: rest) =
          tokLoop ctx
            ⟨{ st.fmt with style_flags := st.fmt.style_flags ^^^ toggleBitOf c },
             apply_formatting
               { st.fmt with style_flags := st.fmt.style_flags ^^^ toggleBitOf c } st.lines⟩
            rest) ∧
    (∀ (ctx : Ctx) (st : TokState) (arg rest : List Char), ']' ∉ arg →
        tokLoop ctx st ('[' :: ("fill-color".toList ++ ' ' :: arg) ++ ']' :: rest) =
          tokLoop ctx
            ⟨{ st.fmt with fill_color := color_from_string ctx.reg (String.mk arg) },
             apply_formatting
               { st.fmt with fill_color := color_from_string ctx.reg (String.mk arg) }
               st.lines⟩ rest) ∧
    (∀ (ctx : Ctx) (st : TokState) (arg rest : List Char), ']' ∉ arg →
        tokLoop ctx st ('[' :: ("outline-color".toList ++ ' ' :: arg) ++ ']' :: rest) =
          tokLoop ctx
            ⟨{ st.fmt with outline_color := color_from_string ctx.reg (String.mk arg) },
             apply_formatting
               { st.fmt with outline_color := color_from_string ctx.reg (String.mk arg) }
               st.lines⟩ rest) ∧
    (∀ (ctx : Ctx) (st : TokState) (arg rest : List Char) (v : ℚ), ']' ∉ arg →
        stofQ (String.mk arg) = some v →
        tokLoop ctx st ('[' :: ("outline-thickness".toList ++ ' ' :: arg) ++ ']' :: rest) =
          tokLoop ctx
            ⟨{ st.fmt with outline_thickness := v },
             apply_formatting { st.fmt with outline_thickness := v } st.lines⟩ rest) ∧
    (∀ (ctx : Ctx) (st : TokState) (arg rest : List Char), ']' ∉ arg →
        ctx.resolveFont (String.mk arg) = true →
        tokLoop ctx st ('[' :: ("font".toList ++ ' ' :: arg) ++ ']' :: rest) =
          tokLoop ctx
            ⟨{ st.fmt with font := some (String.mk arg) },
             apply_formatting { st.fmt with font := some (String.mk arg) } st.lines⟩ rest) ∧
    (∀ (ctx : Ctx) (st : TokState) (rest : List Char),
        tokLoop ctx st ('[' :: ("align".toList ++ ' ' :: "center".toList) ++ ']' :: rest) =
          tokLoop ctx
            ⟨st.fmt, modifyLast (fun ln => { ln with alignment := .center }) st.lines⟩ rest) ∧
    (∀ (a : Alignment) (lines : List Line),
        (modifyLast (fun ln => { ln with alignment := a }) lines).map Line.chunks =
          lines.map Line.chunks) := by
  refine ⟨?_, ?_, ?_, ?_, ?_, ?_, ?_, ?_, modifyLast_alignment_chunks⟩
  · intro fmt init cs ch al h
    exact apply_formatting_push fmt init cs al h
  · intro fmt init cs ch al h
    exact apply_formatting_overwrite fmt init cs al h
  · intro ctx st c rest h
    have hc : c = '/' ∨ c = '*' ∨ c = '_' ∨ c = '~' := by simpa using h
    rcases hc with rfl | rfl | rfl | rfl
    · rw [tokLoop_italic]; rfl
    · rw [tokLoop_bold]; rfl
    · rw [tokLoop_underline]; rfl
    · rw [tokLoop_strike]; rfl
  · intro ctx st arg rest ha
    have hb : ']' ∉ "fill-color".toList ++ ' ' :: arg := by
      simp only [List.mem_append, List.mem_cons, not_or]
      exact ⟨by decide, by decide, ha⟩
    rw [show ('[' :: ("fill-color".toList ++ ' ' :: arg) ++ ']' :: rest) =
      ('[' :: (("fill-color".toList ++ ' ' :: arg) ++ ']' :: rest)) from rfl]
    rw [tokLoop_tag ctx st (splitAtRBracket_append hb rest), handleTag_fill_color]
    rfl
  · intro ctx st arg rest ha
    have hb : ']' ∉ "outline-color".toList ++ ' ' :: arg := by
      simp only [List.mem_append, List.mem_cons, not_or]
      exact ⟨by decide, by decide, ha⟩
    rw [show ('[' :: ("outline-color".toList ++ ' ' :: arg) ++ ']' :: rest) =
      ('[' :: (("outline-color".toList ++ ' ' :: arg) ++ ']' :: rest)) from rfl]
    rw [tokLoop_tag ctx st (splitAtRBracket_append hb rest), handleTag_outline_color]
    rfl
  · intro ctx st arg rest v ha hv
    have hb : ']' ∉ "outline-thickness".toList ++ ' ' :: arg := by
      simp only [List.mem_append, List.mem_cons, not_or]
      exact ⟨by decide, by decide, ha⟩
    rw [show ('[' :: ("outline-thickness".toList ++ ' ' :: arg) ++ ']' :: rest) =
      ('[' :: (("outline-thickness".toList ++ ' ' :: arg) ++ ']' :: rest)) from rfl]
    rw [tokLoop_tag ctx st (splitAtRBracket_append hb rest),
      handleTag_outline_thickness ctx st arg hv]
    rfl
  · intro ctx st arg rest ha hr
    have hb : ']' ∉ "font".toList ++ ' ' :: arg := by
      simp only [List.mem_append, List.mem_cons, not_or]
      exact ⟨by decide, by decide, ha⟩
    rw [show ('[' :: ("font".toList ++ ' ' :: arg) ++ ']' :: rest) =
      ('[' :: (("font".toList ++ ' ' :: arg) ++ ']' :: rest)) from rfl]
    rw [tokLoop_tag ctx st (splitAtRBracket_append hb rest), handleTag_font ctx st arg hr]
    rfl
  · intro ctx st rest
    have hb : ']' ∉ "align".toList ++ ' ' :: "center".toList := by decide
    rw [show ('[' :: ("align".toList ++ ' ' :: "center".toList) ++ ']' :: rest) =
      ('[' :: (("align".toList ++ ' ' :: "center".toList) ++ ']' :: rest)) from rfl]
    rw [tokLoop_tag ctx st (splitAtRBracket_append hb rest)]
    rfl

theorem run_splitting_policy_witness :
    apply_formatting defaultFormat [⟨[⟨defaultFormat, ['a']⟩], .left⟩] =
      [⟨[⟨defaultFormat, ['a']⟩, ⟨defaultFormat, []⟩], .left⟩] ∧
    tokLoop sampleCtx initState
        ('[' :: ("fill-color".toList ++ ' ' :: "red".toList) ++ ']' :: []) =
      tokLoop sampleCtx
        ⟨{ initState.fmt with
             fill_color := color_from_string sampleCtx.reg (String.mk "red".toList) },
         apply_formatting
           { initState.fmt with
               fill_color := color_from_string sampleCtx.reg (String.mk "red".toList) }
           initState.lines⟩ [] :=
  ⟨run_splitting_policy.1 defaultFormat [] [] ⟨defaultFormat, ['a']⟩ .left (by decide),
   run_splitting_policy.2.2.2.1 sampleCtx initState "red".toList [] (by decide)⟩

/-- C5 counterexample: alpha is not preserved — the token `"40ff0000"`
parses as hex `40FF0000` (alpha `0x40`) yet resolves with alpha 255; and
the non-hex token `"12zz"` does not degrade to white — `std::stoi` parses
its longest hex prefix `12` and yields a dark blue. -/
theorem color_resolution_cex :
    (color_from_string default_colors "40ff0000" = ⟨255, 0, 0, 255⟩ ∧
      (0x40 : Nat) ≠ 255) ∧
    (color_from_string default_colors "12zz" = ⟨0, 0, 0x12, 255⟩ ∧
      (⟨0, 0, 0x12, 255⟩ : Color) ≠ Color.white) :=
  ⟨⟨by decide, by decide⟩, ⟨by decide, by decide⟩⟩

/-- C5 (amended): a registered palette name resolves to its registered
color; otherwise the token is parsed by `std::stoi(·, 0, 16)` semantics
(longest hex-digit prefix after optional sign and `0x`, within `int`
range): on success the resulting value's low 24 bits give the RGB channels
while the alpha channel is forced to fully opaque 255 regardless of any
supplied `AA` component; on failure the default white is returned — color
resolution never fails. -/
theorem color_resolution :
    (∀ (reg : List (String × Color)) (s : String) (c : Color),
        lookupColor reg s = some c → color_from_string reg s = c) ∧
    (∀ (reg : List (String × Color)) (s : String),
        lookupColor reg s = none → stoi16 s = none → color_from_string reg s = Color.white) ∧
    (∀ (reg : List (String × Color)) (s : String) (v : Int),
        lookupColor reg s = none → stoi16 s = some v →
        color_from_string reg s = color_from_hex ((v % (2 ^ 32 : Int)).toNat)) ∧
    (∀ (h : Nat), (color_from_hex h).a = 255) ∧
    (∀ (h : Nat),
        (color_from_hex h).r = (h >>> 16) &&& 0xff ∧
        (color_from_hex h).g = (h >>> 8) &&& 0xff ∧
        (color_from_hex h).b = h &&& 0xff) := by
  refine ⟨?_, ?_, ?_, color_from_hex_alpha, color_from_hex_rgb⟩
  · intro reg s c h
    simp [color_from_string, h]
  · intro reg s h1 h2
    simp [color_from_string, h1, h2]
  · intro reg s v h1 h2
    simp [color_from_string, h1, h2]

theorem color_resolution_witness :
    color_from_string default_colors "red" = ⟨255, 0, 0, 255⟩ ∧
    color_from_string default_colors "zzz" = Color.white ∧
    color_from_string default_colors "40ff0000" =
      color_from_hex ((0x40ff0000 % (2 ^ 32 : Int)).toNat) ∧
    (color_from_hex 0x40ff0000).a = 255 :=
  ⟨color_resolution.1 default_colors "red" ⟨255, 0, 0, 255⟩ (by decide),
   color_resolution.2.1 default_colors "zzz" (by decide) (by decide),
   color_resolution.2.2.1 default_colors "40ff0000" 0x40ff0000 (by decide) (by decide),
   color_resolution.2.2.2.1 0x40ff0000⟩

/-- C8: if any run reaches layout without an established font, layout fails
with `missingFont`, surfaced immediately with no partial positioned-run
sequence — the error value carries no runs at all. -/
theorem missing_font_error (M : Measurer) (size : Nat) (lines : List Line)
    (h : ∃ ln ∈ lines, ∃ ch ∈ ln.chunks, ch.fmt.font = none) :
    layout M size lines = .error .missingFont := by
  rw [layout, layLines_error M size lines layoutInit h]
  rfl

theorem missing_font_error_witness :
    layout M2 30 [⟨[⟨defaultFormat, ['a']⟩], .left⟩] = .error .missingFont :=
  missing_font_error M2 30 [⟨[⟨defaultFormat, ['a']⟩], .left⟩] (by decide)

/-- C9 counterexample: with glyph extents that do not touch the origin
(left bearing 2, top bearing 1), the computed bounds `{0, 0, 5, 3}` is not
the smallest rectangle containing the single run's extent `{2, 1, 3, 2}` —
that extent itself is a strictly smaller container. -/
theorem bounds_smallest_cex :
    layout Me 30 [⟨[⟨fmtF, ['a']⟩], .left⟩] =
      .ok (⟨0, 0, 5, 3⟩, [⟨⟨fmtF, ['a']⟩, ((0 : ℚ), (0 : ℚ))⟩]) ∧
    ¬ isSmallestContaining ⟨0, 0, 5, 3⟩
        ([⟨⟨fmtF, ['a']⟩, ((0 : ℚ), (0 : ℚ))⟩].map (extentOf Me 30)) := by
  constructor
  · with_unfolding_all decide
  · intro hsc
    have hext : ([⟨⟨fmtF, ['a']⟩, ((0 : ℚ), (0 : ℚ))⟩].map (extentOf Me 30)) =
        [⟨2, 1, 3, 2⟩] := by
      with_unfolding_all decide
    rw [hext] at hsc
    have h1 : containsRect ⟨2, 1, 3, 2⟩ ⟨0, 0, 5, 3⟩ := by
      apply hsc.2
      intro e he
      simp only [List.mem_singleton] at he
      subst he
      exact ⟨le_refl _, le_refl _, le_refl _, le_refl _⟩
    exact absurd h1.1 (by norm_num)

/-- C9 (amended): throughout layout the bounds' left and top stay 0 and its
width and height never decrease as successive runs are measured; on
completion the bounds is the origin-anchored rectangle whose width and
height are the running maxima (at least 0) of the rendered runs' extent
right and bottom edges — not in general the smallest rectangle containing
the extents, which need not be origin-anchored. -/
theorem bounds_invariants :
    (∀ (M : Measurer) (size : Nat) (acc : LayoutAcc) (sp : ℚ) (ch : Chunk)
        (acc2 : LayoutAcc) (sp2 : ℚ),
        layChunk M size (acc, sp) ch = .ok (acc2, sp2) →
        acc2.bounds.left = acc.bounds.left ∧ acc2.bounds.top = acc.bounds.top ∧
        acc.bounds.width ≤ acc2.bounds.width ∧ acc.bounds.height ≤ acc2.bounds.height) ∧
    (∀ (M : Measurer) (size : Nat) (lines : List Line) (b : Rect) (prs : List PosRun),
        layout M size lines = .ok (b, prs) →
        b.left = 0 ∧ b.top = 0 ∧
        b.width = prs.foldl (fun w pr => max w (extRight M size pr)) 0 ∧
        b.height = prs.foldl (fun h pr => max h (extBottom M size pr)) 0) := by
  constructor
  · intro M size acc sp ch acc2 sp2 h
    rcases hch : ch.fmt.font with _ | f
    · rw [layChunk_font_none M size (acc, sp) hch] at h
      cases h
    · rw [layChunk_font_some M size acc sp hch] at h
      simp only [Except.ok.injEq, Prod.mk.injEq] at h
      obtain ⟨h1, _⟩ := h
      subst h1
      exact ⟨rfl, rfl, le_max_left _ _, le_max_left _ _⟩
  · intro M size lines b prs h
    rw [layout] at h
    cases hl : layLines M size layoutInit lines with
    | error e => rw [hl] at h; cases h
    | ok acc2 =>
      rw [hl] at h
      simp only [Except.map, Except.ok.injEq, Prod.mk.injEq] at h
      obtain ⟨hb, hp⟩ := h
      subst hb
      subst hp
      obtain ⟨hL, hT, Δ, htx, hw, hh2⟩ := layLines_invariant M size lines layoutInit acc2 hl
      have hD : Δ = acc2.texts := by
        rw [htx]
        rfl
      subst hD
      refine ⟨by rw [hL]; rfl, by rw [hT]; rfl, ?_, ?_⟩
      · rw [hw]
        show List.foldl _ layoutInit.bounds.width _ = _
        have hfun : (fun w pr => max w (extRight M size pr - layoutInit.bounds.left)) =
            (fun w pr => max w (extRight M size pr)) := by
          funext w pr
          show max w (extRight M size pr - (0 : ℚ)) = _
          rw [sub_zero]
        rw [hfun]
        rfl
      · rw [hh2]
        show List.foldl _ layoutInit.bounds.height _ = _
        have hfun : (fun h pr => max h (extBottom M size pr - layoutInit.bounds.top)) =
            (fun h pr => max h (extBottom M size pr)) := by
          funext h pr
          show max h (extBottom M size pr - (0 : ℚ)) = _
          rw [sub_zero]
        rw [hfun]
        rfl

theorem bounds_invariants_witness :
    (⟨0, 0, 3, 2⟩ : Rect).left = 0 ∧ (⟨0, 0, 3, 2⟩ : Rect).top = 0 ∧
    (⟨0, 0, 3, 2⟩ : Rect).width =
      [⟨⟨fmtF, ['a']⟩, ((0 : ℚ), (0 : ℚ))⟩].foldl (fun w pr => max w (extRight M2 30 pr)) 0 ∧
    (⟨0, 0, 3, 2⟩ : Rect).height =
      [⟨⟨fmtF, ['a']⟩, ((0 : ℚ), (0 : ℚ))⟩].foldl (fun h pr => max h (extBottom M2 30 pr)) 0 :=
  bounds_invariants.2 M2 30 [lnA] ⟨0, 0, 3, 2⟩ [⟨⟨fmtF, ['a']⟩, ((0 : ℚ), (0 : ℚ))⟩]
    (by with_unfolding_all decide)

/-- C1 counterexample: the bare two-line input `"a\nb"` never yields
positioned runs — no font was established, so the pipeline fails with
`missingFont`; and even with a font tag, a fractional line spacing of 5/2
puts the second line's first run at the rounded y-origin 3, not at the line
spacing itself. -/
theorem layout_cursor_advance_cex :
    rich_text_set_source sampleCtx M2 30 "a\nb".toList = .error .missingFont ∧
    (rich_text_set_source sampleCtx Mhalf 30 "[font f]a\nb".toList =
        .ok (⟨0, 0, 3, 5⟩,
          [⟨⟨fmtF, ['a']⟩, ((0 : ℚ), (0 : ℚ))⟩, ⟨⟨fmtF, ['b']⟩, ((0 : ℚ), (3 : ℚ))⟩]) ∧
      Mhalf.lineSpacing "f" 30 = 5 / 2 ∧ ((3 : ℚ) ≠ 5 / 2)) := by
  refine ⟨by with_unfolding_all decide, by with_unfolding_all decide,
    by with_unfolding_all decide, by with_unfolding_all decide⟩

/-- C1 (amended): layout starts its cursor at `(0, 0)` — the first
positioned run sits at the origin; after a non-last line the cursor's x
resets to 0 and its y becomes the rounded y at which the line was placed
plus the line's computed spacing (the running maximum of its runs' fonts'
line spacings), with no advance after the last line; for the two-line input
`"[font f]a\nb"` (a font must be established — bare `"a\nb"` fails) with
integral spacing 2, the second line's first run has x-origin 0 and y-origin
equal to the first line's line spacing. -/
theorem layout_cursor_advance :
    (∀ (M : Measurer) (size : Nat) (lines : List Line) (acc2 : LayoutAcc),
        layLines M size layoutInit lines = .ok acc2 →
        ∀ pr, acc2.texts.head? = some pr → pr.origin = ((0 : ℚ), (0 : ℚ))) ∧
    (∀ (M : Measurer) (size : Nat) (acc : LayoutAcc) (ln : Line) (rest : List Line)
        (a : LayoutAcc × ℚ), rest ≠ [] → layLine M size acc ln = .ok a →
        layLines M size acc (ln :: rest) =
          layLines M size { a.1 with pos := ((0 : ℚ), a.1.pos.2 + a.2) } rest ∧
        a.2 = lineSpacingFold M size ln ∧
        (ln.chunks ≠ [] → a.1.pos.2 = ((croundf acc.pos.2 : ℤ) : ℚ))) ∧
    (∀ (M : Measurer) (size : Nat) (acc : LayoutAcc) (ln : Line),
        layLines M size acc [ln] = (layLine M size acc ln).map Prod.fst) ∧
    (rich_text_set_source sampleCtx M2 30 "[font f]a\nb".toList =
        .ok (⟨0, 0, 3, 4⟩,
          [⟨⟨fmtF, ['a']⟩, ((0 : ℚ), (0 : ℚ))⟩, ⟨⟨fmtF, ['b']⟩, ((0 : ℚ), (2 : ℚ))⟩]) ∧
      M2.lineSpacing "f" 30 = 2) := by
  refine ⟨?_, ?_, ?_, by with_unfolding_all decide, by with_unfolding_all decide⟩
  · intro M size lines acc2 h pr hpr
    rcases layLines_head_origin M size lines layoutInit acc2 rfl h with h1 | ⟨ch, Δ, h1⟩
    · rw [h1] at hpr
      cases hpr
    · rw [h1] at hpr
      simp only [layoutInit, List.nil_append, List.head?_cons, Option.some.injEq] at hpr
      rw [← hpr]
  · intro M size acc ln rest a hne h
    refine ⟨?_, ?_, ?_⟩
    · rw [layLines_cons M size acc ln hne, h]
      rfl
    · have hsp := layChunks_spacing M size ln.chunks acc 0 a.1 a.2
        (by rw [layLine] at h; exact h)
      rw [lineSpacingFold]
      exact hsp
    · intro hchunks
      exact layChunks_posY_round M size ln.chunks acc 0 a.1 a.2 hchunks
        (by rw [layLine] at h; exact h)
  · intro M size acc ln
    exact layLines_single M size acc ln

theorem layout_cursor_advance_witness :
    layLines M2 30 layoutInit [lnA, lnB] =
      layLines M2 30 { accA with pos := ((0 : ℚ), accA.pos.2 + 2) } [lnB] ∧
    (2 : ℚ) = lineSpacingFold M2 30 lnA ∧
    (lnA.chunks ≠ [] → accA.pos.2 = ((croundf layoutInit.pos.2 : ℤ) : ℚ)) :=
  layout_cursor_advance.2.1 M2 30 layoutInit lnA [lnB] (accA, 2) (by simp)
    (by with_unfolding_all decide)

end CardGen
